import Mathlib

/-!
Verification of the Assessment Session Engine (`server.mjs`) against its
natural-language specification.

The server is shallowly embedded: JavaScript numbers that hold integer
seconds/scores become `ℕ`/`ℤ`, the floating-point scoring factor becomes `ℚ`,
JS `Map`s (insertion-ordered, keyed) become association lists with
update-in-place-or-append assignment, and plain JS objects (as processed by the
Patch Merge Engine) become insertion-ordered field lists over a small JS value
type.  Socket sends, timer arming and log emission are recorded as explicit
effect values; the contents of log entries (random ids, wall-clock timestamps)
are elided and only the log tag sequence is kept.
-/

namespace Dystopia

/-! ## Association lists: the model of JS `Map`

`alSet` mirrors `Map.prototype.set`: an existing key is updated in place
(iteration order keeps the first-insertion position), a new key is appended.
`alGet` mirrors `Map.prototype.get` (`none` = `undefined`). -/

def alGet {K V : Type} [DecidableEq K] : List (K × V) → K → Option V
  | [], _ => none
  | (k', v) :: rest, k => if k' = k then some v else alGet rest k

def alSet {K V : Type} [DecidableEq K] : List (K × V) → K → V → List (K × V)
  | [], k, v => [(k, v)]
  | (k', v') :: rest, k, v =>
      if k' = k then (k, v) :: rest else (k', v') :: alSet rest k v

/-! ## JS values and objects (for the Patch Merge Engine)

`Obj` is an insertion-ordered list of (property name, value) pairs; a JS object
always has pairwise-distinct property names, which the type does not enforce
(well-formedness appears as a hypothesis where it matters).  `objSet` is JS
property assignment, `objMerge a b` is the object spread `\x7b...a, ...b\x7d`. -/

inductive JVal where
  | str : String → JVal
  | num : ℚ → JVal
  | bool : Bool → JVal
  | null : JVal
deriving DecidableEq

/-- JS truthiness of a value (`NaN` does not arise in the `ℚ` model). -/
def JVal.truthy : JVal → Bool
  | .str s => s ≠ ""
  | .num q => q ≠ 0
  | .bool b => b
  | .null => false

/-- `String.prototype.toLowerCase` (ASCII; scenario mode strings are ASCII).
Defined by a structural map over the character list so that concrete instances
evaluate inside the kernel. -/
def jsToLower (s : String) : String := ⟨s.data.map Char.toLower⟩

/-- `String.prototype.toUpperCase` (ASCII), structurally. -/
def jsToUpper (s : String) : String := ⟨s.data.map Char.toUpper⟩

abbrev Obj : Type := List (String × JVal)

/-- Property read `o.k`; `none` plays the role of `undefined`. -/
def objGet (o : Obj) (k : String) : Option JVal := alGet o k

/-- Property assignment `o[k] = v` (update in place or append). -/
def objSet (o : Obj) (k : String) (v : JVal) : Obj := alSet o k v

/-- Object spread `\x7b ...a, ...b \x7d`: assign every field of `b` into `a`. -/
def objMerge (a b : Obj) : Obj := List.foldl (fun acc kv => objSet acc kv.1 kv.2) a b

/-- The JS expression `it.id` used throughout `mergeList`. -/
def idOf (o : Obj) : Option JVal := objGet o "id"

/-- The guard `!item.id` in the upsert branch: `true` iff the id is present and
truthy. -/
def truthyIdB (o : Obj) : Bool := (idOf o).elim false JVal.truthy

/-! ## Patch Merge Engine (`mergeList`, server.mjs lines 238-265) -/

/-- The `removeIds` step at the end of `mergeList`: when `removeIds` is a
nonempty array, drop entries whose id is in the set (`it && !removeSet.has(it.id)`;
the `it &&` null-guard is vacuous here since every entry of `Obj` list is an
object, hence truthy). -/
def applyRemoveIds (next : List Obj) (removeIds : List JVal) : List Obj :=
  if removeIds = [] then next
  else next.filter fun it =>
    match objGet it "id" with
    | none => true
    | some v => decide (v ∉ removeIds)

/-- One step of the upsert fold:
`map.set(item.id, \x7b ...map.get(item.id), ...item \x7d)` guarded by
`if (!item || !item.id) continue` (the `!item` guard is vacuous for objects).
The map key is the id value (`undefined` = `none` for id-less entries, as when
the map is built from `current`). -/
def upStep (m : List (Option JVal × Obj)) (item : Obj) : List (Option JVal × Obj) :=
  if truthyIdB item then
    alSet m (idOf item) (objMerge ((alGet m (idOf item)).getD []) item)
  else m

/-- `new Map(current.map((it) => [it.id, it]))`. -/
def jsMapOf (current : List Obj) : List (Option JVal × Obj) :=
  current.foldl (fun m it => alSet m (idOf it) it) []

/-- `mergeList(existing, \x7bmode, items, removeIds\x7d)` (lines 238-265).
`existing` is taken as an array (the `Array.isArray` guard), `mode` as a
string: an absent/undefined mode is passed as `"replace"` by the destructuring
default, and the `(mode || "replace")` fallback additionally maps the empty
string to `"replace"`. -/
def mergeList (existing : List Obj) (mode : String) (items : List Obj)
    (removeIds : List JVal) : List Obj :=
  let current := existing
  let modeKey := jsToLower (if mode = "" then "replace" else mode)
  let next :=
    if modeKey = "replace" then items
    else if modeKey = "append" then current ++ items
    else if modeKey = "prepend" then items ++ current
    else if modeKey = "upsert" then (items.foldl upStep (jsMapOf current)).map Prod.snd
    else current
  applyRemoveIds next removeIds

/-- Spec-side definition for the upsert mode's refinement claim, following the
spec's words ("existing entries are shallow-merged with matching incoming
entries"): the final value of the entry keyed `k`, given its current value
`o`. -/
def upsertSlot (items : List Obj) (k : Option JVal) (o : Obj) : Obj :=
  match items.find? (fun i => idOf i = k) with
  | some i => objMerge o i
  | none => o

/-- Spec-side definition for the upsert mode's refinement claim, following the
spec's words ("unmatched incoming entries are added"): the incoming items
whose id matches no existing key. -/
def upsertFresh (items : List Obj) (keys : List (Option JVal)) : List Obj :=
  items.filter fun i => decide (idOf i ∉ keys)

/-! ## Scoring Engine (`computeScore`, lines 41-68) -/

structure Penalties where
  wrong : Option ℤ := none
  late : Option ℤ := none
  noResponse : Option ℤ := none
deriving DecidableEq

structure AlgoHint where
  tOffset : ℕ
  text : String
deriving DecidableEq

/-- A scenario event.  `opened`/`closed` model the runtime flags
`_opened`/`_closed` (absent = `false`).  The optional `dashboard` /
`dashboardClose` patch documents are opaque scenario JSON (spec §1); only
their presence matters to the lifecycle code, so they are modelled as
presence flags and their application is recorded as an effect. -/
structure Event where
  id : String
  t : ℕ
  responseWindowSec : ℕ
  correctAction : String
  location : String := ""
  pointsPossible : Option ℕ := none
  penalties : Option Penalties := none
  algoCopy : Option (List AlgoHint) := none
  hasDashboardOpen : Bool := false
  hasDashboardClose : Bool := false
  opened : Bool := false
  closed : Bool := false
deriving DecidableEq

/-- Effective penalty `\x7b wrong:-100, late:-50, noResponse:-50, ...(event.penalties||\x7b\x7d) \x7d`
and the route-level `ev.penalties?.late ?? -50` / `ev.penalties?.noResponse ?? -50`. -/
def Event.lateDelta (ev : Event) : ℤ := ((ev.penalties.bind Penalties.late)).getD (-50)

def Event.wrongDelta (ev : Event) : ℤ := ((ev.penalties.bind Penalties.wrong)).getD (-100)

def Event.noRespDelta (ev : Event) : ℤ := ((ev.penalties.bind Penalties.noResponse)).getD (-50)

/-- `Math.round` on a nonnegative-or-any rational: round half toward +∞. -/
def jsRound (q : ℚ) : ℤ := ⌊q + 1/2⌋

structure ScoreResult where
  delta : ℤ
  reason : String
  responseTime : Option ℚ := none
deriving DecidableEq

/-- `computeScore(\x7bevent, action, nowSec\x7d)` (lines 41-68). -/
def computeScore (event : Event) (action : String) (nowSec : ℕ) : ScoreResult :=
  let window := event.responseWindowSec
  let start := event.t
  let stop := start + window
  let pointsPossible := event.pointsPossible.getD 100
  if nowSec > stop then { delta := event.lateDelta, reason := "late" }
  else if nowSec < start then { delta := 0, reason := "too_early" }
  else if action ≠ event.correctAction then { delta := event.wrongDelta, reason := "wrong" }
  else
    let responseTime : ℚ := max 0 ((nowSec : ℚ) - (start : ℚ))
    let factor : ℚ := 1 - ((responseTime / (window : ℚ)) / 2)
    { delta := jsRound (max 0 factor * (pointsPossible : ℚ)),
      reason := "correct",
      responseTime := some responseTime }

/-! ## Session state (the in-memory `session` record, lines 16-31)

Only the parts the verified routes and helpers touch are modelled.  The
`sockets` sets are represented by `controlPids`, the participant ids bound to
the connected control sockets in iteration order (ops sockets carry no state
that the verified code reads); the interval handle by `timerRunning`; the
`logs` ring buffer by its tag sequence (entry payloads are random ids and
wall-clock data, and none of the claims concern the 400-entry trim). -/

structure Participant where
  id : String
  codename : String
  score : ℤ
deriving DecidableEq

structure InputRecord where
  participantId : String
  eventId : String
  action : String
  t : ℕ
  delta : ℤ
  reason : String
deriving DecidableEq

structure ScoreAgg where
  mean : ℚ
  max : ℤ
  activeCount : ℕ
deriving DecidableEq

structure SessionSt where
  events : List Event
  participants : List (String × Participant)
  inputs : List (String × List (String × InputRecord))
  scoreAgg : ScoreAgg := ⟨0, 0, 0⟩
  logs : List String := []
  controlPids : List String := []
  endBufferSec : Option ℕ := none
  finalized : Bool := false
  timerRunning : Bool := false
deriving DecidableEq

/-- `recomputeAgg(session)` (lines 451-456): `mean` over all participant
scores (0 when empty), `max` (`Math.max(...vals)`, 0 when empty),
`activeCount` = number of participants. -/
def recomputeAgg (s : SessionSt) : SessionSt :=
  let vals : List ℤ := s.participants.map fun kv => kv.2.score
  { s with
    scoreAgg :=
      { mean := if vals = [] then 0 else ((vals.sum : ℚ) / (vals.length : ℚ)),
        max := match vals with | [] => 0 | v :: rest => rest.foldl max v,
        activeCount := vals.length } }

/-- The participant upsert at the head of the input route (lines 666-668):
fetch-or-create, then `p.codename = codename || p.codename` (the `||` takes
the old codename exactly when the incoming one is the empty string). -/
def upsertParticipant (ps : List (String × Participant)) (pid codename : String) :
    List (String × Participant) :=
  let p0 := (alGet ps pid).getD ⟨pid, codename, 0⟩
  alSet ps pid { p0 with codename := if codename = "" then p0.codename else codename }

/-- The cumulative score the session stores for `pid` (0 when the participant
does not exist yet). -/
def scoreOf (s : SessionSt) (pid : String) : ℤ :=
  ((alGet s.participants pid).map Participant.score).getD 0

/-- The InputRecord stored for the (event, participant) pair, if any
(`session.inputs.get(eventId)?.get(pid)`). -/
def inputOf (s : SessionSt) (eventId pid : String) : Option InputRecord :=
  alGet ((alGet s.inputs eventId).getD []) pid

/-- The JSON body and status of the input route's HTTP response. -/
structure InputResponse where
  status : ℕ
  error : Option String := none
  ok : Bool := false
  accepted : Option Bool := none
  reason : Option String := none
deriving DecidableEq

/-- `POST /api/session/:id/input` (lines 656-728), for an existing session.
`participantId` and `codename` are the request values after the route's
defaulting (`|| nanoid(10)` / `|| "Unit NNNN"` — the generated fallbacks are
opaque fresh strings); `nowSec` is `getSessionT(s)`.  Socket sends
(`bcastPersonal`, `score_agg`) are pure outputs derivable from the returned
state and are elided; the log tag is kept. -/
def handleInput (s : SessionSt) (participantId codename eventId action : String)
    (nowSec : ℕ) : InputResponse × SessionSt :=
  -- upsert participant (before any validation)
  let s1 : SessionSt := { s with participants := upsertParticipant s.participants participantId codename }
  let p := (alGet s1.participants participantId).getD ⟨participantId, codename, 0⟩
  -- event validity (s1.events = s.events: the upsert does not touch the scenario)
  match s.events.find? (fun e => e.id = eventId) with
  | none => ({ status := 400, error := some "EVENT_NOT_FOUND" }, s1)
  | some ev =>
    if nowSec < ev.t then ({ status := 409, error := some "TOO_EARLY" }, s1)
    else if nowSec > ev.t + ev.responseWindowSec then
      -- late: penalize directly, no InputRecord
      let delta := ev.lateDelta
      let s2 := recomputeAgg { s1 with
        participants := alSet s1.participants participantId { p with score := p.score + delta } }
      ({ status := 200, ok := true, accepted := some false, reason := some "late" },
       { s2 with logs := s2.logs ++ ["INPUT"] })
    else
      let perEvent := (alGet s1.inputs eventId).getD []
      if (alGet perEvent participantId).isSome then
        -- duplicate: first input only per participant/event
        ({ status := 200, ok := true, accepted := some false, reason := some "duplicate" },
         { s1 with logs := s1.logs ++ ["INPUT"] })
      else
        let r := computeScore ev action nowSec
        let rec' : InputRecord := ⟨participantId, eventId, action, nowSec, r.delta, r.reason⟩
        let s2 := recomputeAgg { s1 with
          inputs := alSet s1.inputs eventId (alSet perEvent participantId rec'),
          participants := alSet s1.participants participantId { p with score := p.score + r.delta } }
        ({ status := 200, ok := true, accepted := some true },
         { s2 with logs := s2.logs ++ ["INPUT"] })

/-- `k` successive submissions with identical request data (used to state the
repeated-late-submission consequence). -/
def iterateInput (s : SessionSt) (participantId codename eventId action : String)
    (nowSec : ℕ) : ℕ → SessionSt
  | 0 => s
  | k + 1 =>
    (handleInput (iterateInput s participantId codename eventId action nowSec k)
      participantId codename eventId action nowSec).2

/-! ## Concrete fixtures (used by counterexamples and witnesses) -/

/-- A session whose single event (offset 0, window 10) already has a recorded
input by participant `p1`, whose cumulative score is 100. -/
def sFixRecorded : SessionSt :=
  { events := [{ id := "E1", t := 0, responseWindowSec := 10, correctAction := "A" }],
    participants := [("p1", ⟨"p1", "P", 100⟩)],
    inputs := [("E1", [("p1", ⟨"p1", "E1", "A", 5, 75, "correct"⟩)])] }

/-- A fresh session with a single not-yet-open event (offset 10, window 10)
and no participants. -/
def sFixFresh : SessionSt :=
  { events := [{ id := "E1", t := 10, responseWindowSec := 10, correctAction := "A" }],
    participants := [], inputs := [] }

/-- A session whose single event has already opened and closed. -/
def sFixClosed : SessionSt :=
  { events := [{ id := "E1", t := 0, responseWindowSec := 5, correctAction := "A",
                 opened := true, closed := true }],
    participants := [], inputs := [] }

/-! ## Leaderboard compiler (lines 543-546 and 743-746, identical projections)

`[...participants.values()].map(p => (\x7bparticipantId, codename, score: p.score || 0\x7d))
  .sort((a,b) => b.score - a.score).map((r,idx) => (\x7b...r, rank: idx+1\x7d))`.
`p.score || 0` only guards an undefined score, which the total `score : ℤ`
field excludes (it maps 0 to 0).  `Array.prototype.sort` is a stable sort
under the comparator's total preorder, so it is modelled by the stable
insertion sort w.r.t. "a may precede b iff b.score ≤ a.score". -/

structure LbRow where
  participantId : String
  codename : String
  score : ℤ
deriving DecidableEq

def lbLE (a b : LbRow) : Prop := b.score ≤ a.score

instance : DecidableRel lbLE := fun a b => inferInstanceAs (Decidable (b.score ≤ a.score))

instance : IsTotal LbRow lbLE := ⟨fun a b => le_total b.score a.score⟩

instance : IsTrans LbRow lbLE := ⟨fun _ _ _ h1 h2 => le_trans h2 h1⟩

def lbSortJS (l : List LbRow) : List LbRow := List.insertionSort lbLE l

structure RankedRow where
  participantId : String
  codename : String
  score : ℤ
  rank : ℕ
deriving DecidableEq

def RankedRow.toLbRow (r : RankedRow) : LbRow := ⟨r.participantId, r.codename, r.score⟩

def leaderboardOf (participants : List (String × Participant)) : List RankedRow :=
  let rows : List LbRow := participants.map fun kv => ⟨kv.2.id, kv.2.codename, kv.2.score⟩
  (lbSortJS rows).enum.map fun p => ⟨p.2.participantId, p.2.codename, p.2.score, p.1 + 1⟩

/-! ## Event lifecycle and finalization (lines 459-562)

Socket broadcasts, timer arming (`setTimeout`), log emission and dashboard
patch application are recorded as effect values in emission order; timer
delays are the computed millisecond arguments. -/

inductive Eff where
  | logOpen (eventId : String)
  | bcastOpenOps (eventId : String)
  | bcastOpenControl (eventId : String)
  | timerAlgo (eventId : String) (delayMs : ℕ) (text : String)
  | algoNow (eventId : String) (text : String)
  | timerClose (eventId : String) (delayMs : ℕ)
  | dashOpen (eventId : String)
  | logClose (eventId : String)
  | feedbackNoResponse (participantId eventId : String) (delta total : ℤ)
  | bcastCloseOps (eventId : String)
  | bcastCloseControl (eventId : String)
  | dashClose (eventId : String)
  | scheduleFinalize (delayMs : ℕ)
  | logFinalize
  | bcastFinal (leaderboard : List RankedRow)
  | personalFinal (participantId : String) (total : ℤ)
  | stopClock
deriving DecidableEq

/-- The effects emitted by the body of the open branch for one due event
(lines 462-497): log, both `event_open` broadcasts, the algo-copy timers (or
the immediate default prompt), the auto-close timer, the open-time dashboard
patch. -/
def openEffects (ev : Event) (tSec : ℕ) : List Eff :=
  [Eff.logOpen ev.id, Eff.bcastOpenOps ev.id, Eff.bcastOpenControl ev.id]
    ++ (match ev.algoCopy with
        | some hints =>
            hints.map fun h =>
              Eff.timerAlgo ev.id ((((ev.t : ℤ) + h.tOffset - tSec) * 1000).toNat) h.text
        | none =>
            [Eff.algoNow ev.id
              ("EXECUTE: " ++ jsToUpper ev.correctAction ++ " at " ++ ev.location ++ ".")])
    ++ [Eff.timerClose ev.id ((((ev.t : ℤ) + ev.responseWindowSec - tSec) * 1000).toNat)]
    ++ (if ev.hasDashboardOpen then [Eff.dashOpen ev.id] else [])

/-- One iteration of the `openEventsIfNeeded` loop:
`if (ev._opened || tSec < ev.t) continue; ev._opened = true; ...`. -/
def openOne (ev : Event) (tSec : ℕ) : Event × List Eff :=
  if ev.opened ∨ tSec < ev.t then (ev, [])
  else ({ ev with opened := true }, openEffects ev tSec)

/-- `openEventsIfNeeded(session, tSec)` (lines 459-499). -/
def openEventsIfNeeded (s : SessionSt) (tSec : ℕ) : SessionSt × List Eff :=
  let results := s.events.map fun ev => openOne ev tSec
  ({ s with events := results.map Prod.fst }, (results.map Prod.snd).flatten)

/-- `ev._closed = true` on the first event found by id (`events.find`). -/
def markClosedFirst : List Event → String → List Event
  | [], _ => []
  | ev :: rest, eventId =>
      if ev.id = eventId then { ev with closed := true } :: rest
      else ev :: markClosedFirst rest eventId

/-- `closeEvent(session, eventId)` (lines 501-535): guard on `_closed`, mark
closed, log, apply the `noResponse` penalty to every participant without an
InputRecord for this event (with personal feedback for those with a connected
control socket), recompute the aggregate, broadcast `event_close`, apply the
close-time dashboard patch, and — when every event is now closed — arm the
finalization timer for `(meta?.endBufferSec ?? 8) * 1000` ms. -/
def closeEvent (s : SessionSt) (eventId : String) : SessionSt × List Eff :=
  match s.events.find? (fun e => e.id = eventId) with
  | none => (s, [])
  | some ev =>
    if ev.closed then (s, [])
    else
      let events' := markClosedFirst s.events eventId
      let perEvent := (alGet s.inputs eventId).getD []
      let parts' := s.participants.map fun kv =>
        if (alGet perEvent kv.1).isSome then kv
        else (kv.1, { kv.2 with score := kv.2.score + ev.noRespDelta })
      let fbEffs := s.participants.filterMap fun kv =>
        if (alGet perEvent kv.1).isSome then none
        else if kv.1 ∈ s.controlPids then
          some (Eff.feedbackNoResponse kv.1 eventId ev.noRespDelta (kv.2.score + ev.noRespDelta))
        else none
      let s1 := recomputeAgg
        { s with events := events', participants := parts', logs := s.logs ++ ["EVENT CLOSE"] }
      let allClosed := events'.all fun e => e.closed
      (s1,
       [Eff.logClose eventId] ++ fbEffs
         ++ [Eff.bcastCloseOps eventId, Eff.bcastCloseControl eventId]
         ++ (if ev.hasDashboardClose then [Eff.dashClose eventId] else [])
         ++ (if allClosed then [Eff.scheduleFinalize ((s.endBufferSec.getD 8) * 1000)] else []))

/-- `finalizeSession(session)` (lines 537-562): guarded by `_finalized`; log,
broadcast the leaderboard to ops, send each connected control socket its
participant's final total (`me ? me.score || 0 : 0`), and clear the tick
interval if it is armed. -/
def finalizeSession (s : SessionSt) : SessionSt × List Eff :=
  if s.finalized then (s, [])
  else
    ({ s with finalized := true, logs := s.logs ++ ["SESSION"], timerRunning := false },
     [Eff.logFinalize, Eff.bcastFinal (leaderboardOf s.participants)]
       ++ (s.controlPids.map fun pid =>
            Eff.personalFinal pid (((alGet s.participants pid).map Participant.score).getD 0))
       ++ (if s.timerRunning then [Eff.stopClock] else []))

/-! ## Helper lemmas -/

theorem alGet_alSet_self {K V : Type} [DecidableEq K] (m : List (K × V)) (k : K) (v : V) :
    alGet (alSet m k v) k = some v := by
  induction m with
  | nil => simp [alGet, alSet]
  | cons hd tl ih =>
    by_cases h : hd.1 = k
    · simp [alSet, h, alGet]
    · simp [alSet, h, alGet, ih]

theorem alGet_alSet_ne {K V : Type} [DecidableEq K] (m : List (K × V)) (k k' : K) (v : V)
    (h : k' ≠ k) : alGet (alSet m k v) k' = alGet m k' := by
  induction m with
  | nil => simp [alGet, alSet, Ne.symm h]
  | cons hd tl ih =>
    obtain ⟨k₀, v₀⟩ := hd
    by_cases hh : k₀ = k
    · have e1 : alSet ((k₀, v₀) :: tl) k v = (k, v) :: tl := by simp [alSet, hh]
      have e3 : k₀ ≠ k' := by rw [hh]; exact Ne.symm h
      rw [e1]
      simp [alGet, Ne.symm h, e3]
    · have e1 : alSet ((k₀, v₀) :: tl) k v = (k₀, v₀) :: alSet tl k v := by simp [alSet, hh]
      rw [e1]
      by_cases hk' : k₀ = k'
      · simp [alGet, hk']
      · simp [alGet, hk', ih]

@[simp] theorem recomputeAgg_events (s : SessionSt) : (recomputeAgg s).events = s.events := rfl

@[simp] theorem recomputeAgg_participants (s : SessionSt) :
    (recomputeAgg s).participants = s.participants := rfl

@[simp] theorem recomputeAgg_inputs (s : SessionSt) : (recomputeAgg s).inputs = s.inputs := rfl

@[simp] theorem recomputeAgg_logs (s : SessionSt) : (recomputeAgg s).logs = s.logs := rfl

theorem upsertParticipant_get_self (ps : List (String × Participant)) (pid c : String) :
    alGet (upsertParticipant ps pid c) pid =
      some { (alGet ps pid).getD ⟨pid, c, 0⟩ with
             codename := if c = "" then ((alGet ps pid).getD ⟨pid, c, 0⟩).codename else c } := by
  simp [upsertParticipant, alGet_alSet_self]

theorem upsertParticipant_get_ne (ps : List (String × Participant)) (pid c q : String)
    (h : q ≠ pid) : alGet (upsertParticipant ps pid c) q = alGet ps q := by
  simp [upsertParticipant, alGet_alSet_ne _ _ _ _ h]

/-- The participant upsert never changes any stored cumulative score. -/
theorem upsertParticipant_score (ps : List (String × Participant)) (pid c q : String) :
    ((alGet (upsertParticipant ps pid c) q).map Participant.score).getD 0
      = ((alGet ps q).map Participant.score).getD 0 := by
  by_cases h : q = pid
  · subst h
    rw [upsertParticipant_get_self]
    cases halGet : alGet ps q <;> simp [halGet]
  · rw [upsertParticipant_get_ne _ _ _ _ h]

theorem jsRound_mono {a b : ℚ} (h : a ≤ b) : jsRound a ≤ jsRound b :=
  Int.floor_le_floor (by linarith)

theorem jsRound_natCast (P : ℕ) : jsRound (P : ℚ) = (P : ℤ) := by
  rw [jsRound]
  rw [Int.floor_eq_iff]
  constructor
  · push_cast
    linarith
  · push_cast
    linarith

/-- The correct-in-window branch of `computeScore`, in closed form. -/
theorem computeScore_correct_eq (ev : Event) (n : ℕ) (hw : 0 < ev.responseWindowSec)
    (hlo : ev.t ≤ n) (hhi : n ≤ ev.t + ev.responseWindowSec) :
    computeScore ev ev.correctAction n =
      { delta := jsRound ((1 - (((n : ℚ) - (ev.t : ℚ)) / (ev.responseWindowSec : ℚ)) / 2)
          * ((ev.pointsPossible.getD 100 : ℕ) : ℚ)),
        reason := "correct",
        responseTime := some ((n : ℚ) - (ev.t : ℚ)) } := by
  have htq : (ev.t : ℚ) ≤ (n : ℚ) := by exact_mod_cast hlo
  have hwq : (0 : ℚ) < (ev.responseWindowSec : ℚ) := by exact_mod_cast hw
  have hnw : (n : ℚ) - (ev.t : ℚ) ≤ (ev.responseWindowSec : ℚ) := by
    have : (n : ℚ) ≤ (ev.t : ℚ) + (ev.responseWindowSec : ℚ) := by exact_mod_cast hhi
    linarith
  have hq1 : ((n : ℚ) - (ev.t : ℚ)) / (ev.responseWindowSec : ℚ) ≤ 1 :=
    (div_le_one hwq).mpr hnw
  have hq0 : 0 ≤ ((n : ℚ) - (ev.t : ℚ)) / (ev.responseWindowSec : ℚ) :=
    div_nonneg (by linarith) (le_of_lt hwq)
  simp only [computeScore]
  rw [if_neg (by omega), if_neg (by omega), if_neg (fun h => h rfl)]
  have hmax1 : max (0 : ℚ) ((n : ℚ) - (ev.t : ℚ)) = (n : ℚ) - (ev.t : ℚ) :=
    max_eq_right (by linarith)
  rw [hmax1]
  rw [max_eq_right
    (show (0 : ℚ) ≤ 1 - (((n : ℚ) - (ev.t : ℚ)) / (ev.responseWindowSec : ℚ)) / 2 by linarith)]

/-- Bounds and antitonicity of the correct-branch factor, multiplied out. -/
theorem correct_factor_bounds (t w n : ℕ) (hw : 0 < w) (hlo : t ≤ n) (hhi : n ≤ t + w) :
    (1 / 2 : ℚ) ≤ 1 - (((n : ℚ) - (t : ℚ)) / (w : ℚ)) / 2 ∧
      1 - (((n : ℚ) - (t : ℚ)) / (w : ℚ)) / 2 ≤ 1 := by
  have htq : (t : ℚ) ≤ (n : ℚ) := by exact_mod_cast hlo
  have hwq : (0 : ℚ) < (w : ℚ) := by exact_mod_cast hw
  have hnw : (n : ℚ) - (t : ℚ) ≤ (w : ℚ) := by
    have : (n : ℚ) ≤ (t : ℚ) + (w : ℚ) := by exact_mod_cast hhi
    linarith
  have hq1 : ((n : ℚ) - (t : ℚ)) / (w : ℚ) ≤ 1 := (div_le_one hwq).mpr hnw
  have hq0 : 0 ≤ ((n : ℚ) - (t : ℚ)) / (w : ℚ) := div_nonneg (by linarith) (le_of_lt hwq)
  constructor <;> linarith

/-! ## C1 -/

/-- C1: for an event with offset `t`, positive window `w` and point budget
`P`, a submission of the correct action at elapsed time `n` with
`t ≤ n ≤ t + w` scores reason `"correct"` with
`delta = round((1 − ((n−t)/w)/2) · P)`; this delta lies between
`round(0.5·P)` and `P` and is monotonically non-increasing in `n`; and in the
concrete scenario `t=10, w=10, correctAction="Dispatch", P=100`, submitting
`"Dispatch"` at `n=12` yields `delta = 90`, reason `"correct"`. -/
theorem correct_submission_scoring (ev : Event) (action : String) (n : ℕ)
    (hw : 0 < ev.responseWindowSec) (ha : action = ev.correctAction)
    (hlo : ev.t ≤ n) (hhi : n ≤ ev.t + ev.responseWindowSec) :
    (computeScore ev action n).reason = "correct" ∧
    (computeScore ev action n).delta =
      jsRound ((1 - (((n : ℚ) - (ev.t : ℚ)) / (ev.responseWindowSec : ℚ)) / 2)
        * ((ev.pointsPossible.getD 100 : ℕ) : ℚ)) ∧
    jsRound ((1 / 2 : ℚ) * ((ev.pointsPossible.getD 100 : ℕ) : ℚ))
      ≤ (computeScore ev action n).delta ∧
    (computeScore ev action n).delta ≤ ((ev.pointsPossible.getD 100 : ℕ) : ℤ) ∧
    (∀ n', n ≤ n' → n' ≤ ev.t + ev.responseWindowSec →
      (computeScore ev action n').delta ≤ (computeScore ev action n).delta) ∧
    computeScore { id := "E1", t := 10, responseWindowSec := 10, correctAction := "Dispatch" }
      "Dispatch" 12 = { delta := 90, reason := "correct", responseTime := some 2 } := by
  subst ha
  have heq := computeScore_correct_eq ev n hw hlo hhi
  have hb := correct_factor_bounds ev.t ev.responseWindowSec n hw hlo hhi
  have hP0 : (0 : ℚ) ≤ ((ev.pointsPossible.getD 100 : ℕ) : ℚ) := by positivity
  refine ⟨by rw [heq], by rw [heq], ?_, ?_, ?_, ?_⟩
  · rw [heq]
    exact jsRound_mono (mul_le_mul_of_nonneg_right hb.1 hP0)
  · rw [heq]
    calc jsRound ((1 - (((n : ℚ) - (ev.t : ℚ)) / (ev.responseWindowSec : ℚ)) / 2)
            * ((ev.pointsPossible.getD 100 : ℕ) : ℚ))
        ≤ jsRound ((ev.pointsPossible.getD 100 : ℕ) : ℚ) := by
          refine jsRound_mono ?_
          nlinarith [hb.2, hP0]
      _ = ((ev.pointsPossible.getD 100 : ℕ) : ℤ) := jsRound_natCast _
  · intro n' h1 h2
    have hlo' : ev.t ≤ n' := le_trans hlo h1
    rw [heq, computeScore_correct_eq ev n' hw hlo' h2]
    refine jsRound_mono (mul_le_mul_of_nonneg_right ?_ hP0)
    have hwq : (0 : ℚ) < (ev.responseWindowSec : ℚ) := by exact_mod_cast hw
    have hnn' : (n : ℚ) ≤ (n' : ℚ) := by exact_mod_cast h1
    have : ((n : ℚ) - (ev.t : ℚ)) / (ev.responseWindowSec : ℚ)
        ≤ ((n' : ℚ) - (ev.t : ℚ)) / (ev.responseWindowSec : ℚ) := by
      apply div_le_div_of_nonneg_right ?_ (le_of_lt hwq)
      linarith
    linarith
  · have h12 := computeScore_correct_eq
      { id := "E1", t := 10, responseWindowSec := 10, correctAction := "Dispatch" }
      12 (by norm_num) (by norm_num) (by norm_num)
    rw [h12]
    have hfl : (⌊(181 / 2 : ℚ)⌋ : ℤ) = 90 := by
      rw [Int.floor_eq_iff]
      norm_num
    simp only [jsRound, ScoreResult.mk.injEq]
    norm_num [hfl]

/-- Witness for C1 at a concrete event (offset 10, window 10, budget 100)
and elapsed time 12. -/
theorem correct_submission_scoring_witness :
    (computeScore { id := "E1", t := 10, responseWindowSec := 10, correctAction := "Dispatch" }
      "Dispatch" 12).reason = "correct" :=
  (correct_submission_scoring
    { id := "E1", t := 10, responseWindowSec := 10, correctAction := "Dispatch" }
    "Dispatch" 12 (by norm_num) rfl (by norm_num) (by norm_num)).1

/-! ## C2 -/

/-- C2 fails as stated: the claim covers a second submission "whenever it
arrives", but a second submission arriving after the window hits the late
branch before the duplicate check: it is rejected with reason `"late"` (not
`"duplicate"`), and the participant's cumulative score changes (100 → 50). -/
theorem duplicate_submission_counterexample :
    (handleInput sFixRecorded "p1" "P" "E1" "A" 25).1.reason = some "late" ∧
    (handleInput sFixRecorded "p1" "P" "E1" "A" 25).1.reason ≠ some "duplicate" ∧
    scoreOf sFixRecorded "p1" = 100 ∧
    scoreOf (handleInput sFixRecorded "p1" "P" "E1" "A" 25).2 "p1" = 50 := by decide

/-- C2 (amended): for every (event, participant) pair at most one InputRecord
is ever recorded — a stored record is never overwritten by any later
submission — and a second submission arriving while the window is open
(offset ≤ elapsed ≤ offset + window) is rejected with `accepted:false`,
reason `"duplicate"`, with no scoring: inputs, aggregate and all cumulative
scores are left unchanged.  (A second submission arriving after the window is
instead penalized as late; see the counterexample.) -/
theorem duplicate_submission_rejection :
    (∀ (s : SessionSt) (pid codename eventId action : String) (nowSec : ℕ)
       (eid' pid' : String) (r : InputRecord),
       inputOf s eid' pid' = some r →
       inputOf (handleInput s pid codename eventId action nowSec).2 eid' pid' = some r) ∧
    (∀ (s : SessionSt) (pid codename eventId action : String) (nowSec : ℕ) (ev : Event),
       s.events.find? (fun e => e.id = eventId) = some ev →
       ev.t ≤ nowSec → nowSec ≤ ev.t + ev.responseWindowSec →
       (inputOf s eventId pid).isSome →
       (handleInput s pid codename eventId action nowSec).1
           = { status := 200, ok := true, accepted := some false, reason := some "duplicate" } ∧
       (handleInput s pid codename eventId action nowSec).2.inputs = s.inputs ∧
       (handleInput s pid codename eventId action nowSec).2.scoreAgg = s.scoreAgg ∧
       (∀ q, scoreOf (handleInput s pid codename eventId action nowSec).2 q = scoreOf s q)) := by
  constructor
  · intro s pid c eid a now eid' pid' r h
    simp only [handleInput]
    split
    · simpa [inputOf] using h
    · rename_i ev hev
      by_cases h1 : now < ev.t
      · rw [if_pos h1]
        simpa [inputOf] using h
      · rw [if_neg h1]
        by_cases h2 : now > ev.t + ev.responseWindowSec
        · rw [if_pos h2]
          simpa [inputOf] using h
        · rw [if_neg h2]
          by_cases h3 : (alGet ((alGet s.inputs eid).getD []) pid).isSome
          · rw [if_pos h3]
            simpa [inputOf] using h
          · rw [if_neg h3]
            simp only [inputOf, recomputeAgg_inputs] at h ⊢
            by_cases he : eid' = eid
            · subst he
              rw [alGet_alSet_self]
              simp only [Option.getD_some]
              by_cases hp : pid' = pid
              · subst hp
                rw [h] at h3
                simp at h3
              · rw [alGet_alSet_ne _ _ _ _ hp]
                exact h
            · rw [alGet_alSet_ne _ _ _ _ he]
              exact h
  · intro s pid c eid a now ev hev h1 h2 hdup
    have hnl : ¬ (now < ev.t) := by omega
    have hng : ¬ (now > ev.t + ev.responseWindowSec) := by omega
    simp only [handleInput, hev]
    rw [if_neg hnl, if_neg hng,
      if_pos (show (alGet ((alGet s.inputs eid).getD []) pid).isSome = true from hdup)]
    exact ⟨rfl, rfl, rfl, fun q => upsertParticipant_score _ _ _ _⟩

/-- Witness for C2 at the recorded fixture: an in-window second submission is
rejected as a duplicate with the score untouched. -/
theorem duplicate_submission_rejection_witness :
    (handleInput sFixRecorded "p1" "P" "E1" "A" 7).1.reason = some "duplicate" ∧
    scoreOf (handleInput sFixRecorded "p1" "P" "E1" "A" 7).2 "p1" = scoreOf sFixRecorded "p1" := by
  have h := duplicate_submission_rejection.2 sFixRecorded "p1" "P" "E1" "A" 7
    { id := "E1", t := 0, responseWindowSec := 10, correctAction := "A" }
    (by decide) (by decide) (by decide) (by decide)
  exact ⟨by rw [h.1], h.2.2.2 "p1"⟩

/-! ## C3 -/

/-- C3 fails as stated: a too-early submission is rejected with HTTP 409, but
session state *is* mutated — the participant upsert runs before the
`TOO_EARLY` check, so a previously-unknown participant is created. -/
theorem too_early_submission_counterexample :
    (handleInput sFixFresh "p1" "X" "E1" "A" 3).1.status = 409 ∧
    (handleInput sFixFresh "p1" "X" "E1" "A" 3).2.participants ≠ sFixFresh.participants := by
  decide

/-- C3 (amended): a submission strictly before the target event's offset is
rejected with HTTP 409 and mutates nothing except the participant upsert
(participant created with score 0, or codename updated): no InputRecord is
written, no log is appended, and no cumulative score or aggregate changes. -/
theorem too_early_submission (s : SessionSt) (pid codename eventId action : String)
    (nowSec : ℕ) (ev : Event)
    (hev : s.events.find? (fun e => e.id = eventId) = some ev)
    (hearly : nowSec < ev.t) :
    (handleInput s pid codename eventId action nowSec).1
        = { status := 409, error := some "TOO_EARLY" } ∧
    (handleInput s pid codename eventId action nowSec).2
        = { s with participants := upsertParticipant s.participants pid codename } ∧
    (∀ q, scoreOf (handleInput s pid codename eventId action nowSec).2 q = scoreOf s q) := by
  simp only [handleInput, hev]
  rw [if_pos hearly]
  exact ⟨rfl, rfl, fun q => upsertParticipant_score _ _ _ _⟩

/-- Witness for C3 at the fresh fixture. -/
theorem too_early_submission_witness :
    (handleInput sFixFresh "p1" "X" "E1" "A" 3).1 = { status := 409, error := some "TOO_EARLY" } :=
  (too_early_submission sFixFresh "p1" "X" "E1" "A" 3
    { id := "E1", t := 10, responseWindowSec := 10, correctAction := "A" }
    (by decide) (by decide)).1

/-! ## C4 -/

/-- The input route never touches the scenario's event list. -/
theorem handleInput_events (s : SessionSt) (pid c eid a : String) (now : ℕ) :
    (handleInput s pid c eid a now).2.events = s.events := by
  simp only [handleInput]
  split
  · rfl
  · split
    · rfl
    · split
      · rfl
      · split
        · rfl
        · rfl

theorem iterateInput_events (s : SessionSt) (pid c eid a : String) (now k : ℕ) :
    (iterateInput s pid c eid a now k).events = s.events := by
  induction k with
  | zero => rfl
  | succ k ih => rw [iterateInput, handleInput_events, ih]

/-- One late submission: response, untouched inputs, score delta. -/
theorem handleInput_late_aux (s : SessionSt) (pid c eid a : String) (now : ℕ) (ev : Event)
    (hev : s.events.find? (fun e => e.id = eid) = some ev)
    (hlate : ev.t + ev.responseWindowSec < now) :
    (handleInput s pid c eid a now).1
        = { status := 200, ok := true, accepted := some false, reason := some "late" } ∧
    (handleInput s pid c eid a now).2.inputs = s.inputs ∧
    scoreOf (handleInput s pid c eid a now).2 pid = scoreOf s pid + ev.lateDelta := by
  have h1 : ¬ (now < ev.t) := by omega
  have h2 : now > ev.t + ev.responseWindowSec := hlate
  simp only [handleInput, hev]
  rw [if_neg h1, if_pos h2]
  refine ⟨rfl, rfl, ?_⟩
  simp only [scoreOf, recomputeAgg_participants]
  rw [alGet_alSet_self]
  simp only [Option.map_some', Option.getD_some]
  rw [upsertParticipant_get_self]
  cases halGet : alGet s.participants pid <;> simp [halGet]

/-- C4: a submission with elapsed time strictly past `offset + window` changes
the participant's score by `penalties.late` (`ev.penalties?.late ?? -50`),
records no InputRecord (the inputs map is untouched), and is answered
`accepted:false`, reason `"late"`; consequently `k` successive late
submissions for the same pair are each independently penalized, moving the
score by `k * penalties.late` while never recording anything. -/
theorem late_submission_penalty (s : SessionSt) (pid codename eventId action : String)
    (nowSec : ℕ) (ev : Event)
    (hev : s.events.find? (fun e => e.id = eventId) = some ev)
    (hlate : ev.t + ev.responseWindowSec < nowSec) :
    (handleInput s pid codename eventId action nowSec).1
        = { status := 200, ok := true, accepted := some false, reason := some "late" } ∧
    (handleInput s pid codename eventId action nowSec).2.inputs = s.inputs ∧
    scoreOf (handleInput s pid codename eventId action nowSec).2 pid
        = scoreOf s pid + ev.lateDelta ∧
    (∀ k : ℕ, (iterateInput s pid codename eventId action nowSec k).inputs = s.inputs ∧
      scoreOf (iterateInput s pid codename eventId action nowSec k) pid
          = scoreOf s pid + k * ev.lateDelta) := by
  have haux := handleInput_late_aux s pid codename eventId action nowSec ev hev hlate
  refine ⟨haux.1, haux.2.1, haux.2.2, ?_⟩
  intro k
  induction k with
  | zero => simp [iterateInput]
  | succ k ih =>
    have hevk : (iterateInput s pid codename eventId action nowSec k).events.find?
        (fun e => e.id = eventId) = some ev := by
      rw [iterateInput_events]
      exact hev
    have hstep := handleInput_late_aux (iterateInput s pid codename eventId action nowSec k)
      pid codename eventId action nowSec ev hevk hlate
    constructor
    · rw [iterateInput, hstep.2.1, ih.1]
    · rw [iterateInput, hstep.2.2, ih.2]
      push_cast
      ring

/-- Witness for C4: a late submission to the fresh fixture at elapsed 25
(window closed at 20) is soft-rejected as late. -/
theorem late_submission_penalty_witness :
    (handleInput sFixFresh "p1" "X" "E1" "A" 25).1
        = { status := 200, ok := true, accepted := some false, reason := some "late" } ∧
    scoreOf (iterateInput sFixFresh "p1" "X" "E1" "A" 25 3) "p1" = -150 := by
  have h := late_submission_penalty sFixFresh "p1" "X" "E1" "A" 25
    { id := "E1", t := 10, responseWindowSec := 10, correctAction := "A" }
    (by decide) (by decide)
  refine ⟨h.1, ?_⟩
  rw [(h.2.2.2 3).2]
  decide

/-! ## C5 -/

/-- An already-open event is skipped wholesale by the open pass. -/
theorem openOne_of_opened (ev : Event) (t : ℕ) (h : ev.opened = true) :
    openOne ev t = (ev, []) := by
  rw [openOne, if_pos (Or.inl h)]

/-- Opening is idempotent per event. -/
theorem openOne_idem (ev : Event) (t : ℕ) :
    openOne (openOne ev t).1 t = ((openOne ev t).1, []) := by
  by_cases hg : ev.opened = true ∨ t < ev.t
  · have h1 : openOne ev t = (ev, []) := by rw [openOne, if_pos hg]
    rw [h1]
    exact h1
  · have h1 : openOne ev t = ({ ev with opened := true }, openEffects ev t) := by
      rw [openOne, if_neg hg]
    rw [h1]
    exact openOne_of_opened _ _ rfl

/-- A closed (or missing) event makes `closeEvent` a strict no-op. -/
theorem closeEvent_guard (s : SessionSt) (eid : String) (ev : Event)
    (hfind : s.events.find? (fun e => e.id = eid) = some ev)
    (hclosed : ev.closed = true) : closeEvent s eid = (s, []) := by
  simp only [closeEvent, hfind]
  rw [if_pos hclosed]

theorem find?_markClosedFirst (l : List Event) (eid : String) (ev : Event)
    (h : l.find? (fun e => e.id = eid) = some ev) :
    (markClosedFirst l eid).find? (fun e => e.id = eid) = some { ev with closed := true } := by
  induction l with
  | nil => simp at h
  | cons hd tl ih =>
    by_cases hhd : hd.id = eid
    · have hp : decide (hd.id = eid) = true := by simpa using hhd
      simp only [List.find?_cons, hp] at h
      obtain rfl : hd = ev := Option.some.inj h
      simp only [markClosedFirst, if_pos hhd]
      have hp' : decide (({ hd with closed := true } : Event).id = eid) = true := by
        simpa using hhd
      simp only [List.find?_cons, hp']
    · have hp : decide (hd.id = eid) = false := by simpa using hhd
      simp only [List.find?_cons, hp] at h
      simp only [markClosedFirst, if_neg hhd, List.find?_cons, hp]
      exact ih h

theorem closeEvent_events (s : SessionSt) (eid : String) (ev : Event)
    (hfind : s.events.find? (fun e => e.id = eid) = some ev)
    (hc : ¬ (ev.closed = true)) :
    (closeEvent s eid).1.events = markClosedFirst s.events eid := by
  simp only [closeEvent, hfind]
  rw [if_neg hc]
  rfl

/-- A pass in which every event is individually skipped is a strict no-op. -/
theorem openEventsIfNeeded_no_op (s : SessionSt) (t : ℕ)
    (h : ∀ e ∈ s.events, openOne e t = (e, [])) :
    openEventsIfNeeded s t = (s, []) := by
  simp only [openEventsIfNeeded]
  have h1 : (s.events.map fun ev => openOne ev t).map Prod.fst = s.events := by
    rw [List.map_map]
    have h2 : s.events.map (fun e => (openOne e t).1) = s.events.map (fun e => e) := by
      exact List.map_congr_left fun a ha => by rw [h a ha]
    rw [show (Prod.fst ∘ fun ev => openOne ev t) = fun e => (openOne e t).1 from rfl]
    rw [h2, List.map_id']
  have h3 : ((s.events.map fun ev => openOne ev t).map Prod.snd).flatten = [] := by
    rw [List.map_map, List.flatten_eq_nil_iff]
    intro l hl
    obtain ⟨e, he, rfl⟩ := List.mem_map.mp hl
    show (openOne e t).2 = []
    rw [h e he]
  rw [h1, h3]

/-- C5: `opened`/`closed` transition false→true at most once and redundant
lifecycle invocations have no side effects: (1) the open pass skips an
already-open event entirely, emitting nothing for it; (2) every event is
either left untouched with no effects, or — only when not yet open and due
(`offset ≤ elapsed`) — set to `opened := true` with its open effects emitted;
(3) re-running the whole open pass at the same elapsed time is a strict
no-op; (4) closing an already-closed event is a strict no-op (no penalty
pass, no broadcast); (5) re-running `closeEvent` on its own result is a
strict no-op. -/
theorem event_lifecycle_monotone :
    (∀ (ev : Event) (t : ℕ), ev.opened = true → openOne ev t = (ev, [])) ∧
    (∀ (ev : Event) (t : ℕ),
      openOne ev t = (ev, []) ∨
      (ev.opened = false ∧ ev.t ≤ t ∧
        openOne ev t = ({ ev with opened := true }, openEffects ev t))) ∧
    (∀ (s : SessionSt) (t : ℕ),
      openEventsIfNeeded (openEventsIfNeeded s t).1 t = ((openEventsIfNeeded s t).1, [])) ∧
    (∀ (s : SessionSt) (eid : String) (ev : Event),
      s.events.find? (fun e => e.id = eid) = some ev → ev.closed = true →
      closeEvent s eid = (s, [])) ∧
    (∀ (s : SessionSt) (eid : String),
      closeEvent (closeEvent s eid).1 eid = ((closeEvent s eid).1, [])) := by
  refine ⟨openOne_of_opened, ?_, ?_, closeEvent_guard, ?_⟩
  · intro ev t
    by_cases hg : ev.opened = true ∨ t < ev.t
    · exact Or.inl (by rw [openOne, if_pos hg])
    · push_neg at hg
      exact Or.inr ⟨by simpa using hg.1, by omega, by rw [openOne, if_neg (by simpa using hg)]⟩
  · intro s t
    have key : ∀ e ∈ (openEventsIfNeeded s t).1.events, openOne e t = (e, []) := by
      intro e he
      simp only [openEventsIfNeeded, List.map_map] at he
      obtain ⟨ev, -, rfl⟩ := List.mem_map.mp he
      exact openOne_idem ev t
    exact openEventsIfNeeded_no_op _ t key
  · intro s eid
    cases hfind : s.events.find? (fun e => e.id = eid) with
    | none =>
      have h1 : closeEvent s eid = (s, []) := by simp only [closeEvent, hfind]
      rw [h1]
      exact h1
    | some ev =>
      by_cases hc : ev.closed = true
      · have h1 := closeEvent_guard s eid ev hfind hc
        rw [h1]
        exact h1
      · have hev' : (closeEvent s eid).1.events.find? (fun e => e.id = eid)
            = some { ev with closed := true } := by
          rw [closeEvent_events s eid ev hfind hc]
          exact find?_markClosedFirst _ _ _ hfind
        exact closeEvent_guard _ _ _ hev' rfl

/-- Witness for C5: an already-open event is skipped at elapsed 7, and closing
an already-closed event leaves the session untouched with no effects. -/
theorem event_lifecycle_monotone_witness :
    openOne { id := "E1", t := 5, responseWindowSec := 10, correctAction := "A", opened := true } 7
        = ({ id := "E1", t := 5, responseWindowSec := 10, correctAction := "A", opened := true },
           []) ∧
    closeEvent sFixClosed "E1" = (sFixClosed, []) :=
  ⟨event_lifecycle_monotone.1 _ 7 rfl,
   event_lifecycle_monotone.2.2.2.1 sFixClosed "E1"
     { id := "E1", t := 0, responseWindowSec := 5, correctAction := "A",
       opened := true, closed := true }
     (by decide) rfl⟩

/-! ## C6 -/

/-- Finalizing an already-finalized session is a strict no-op. -/
theorem finalizeSession_guard (s : SessionSt) (h : s.finalized = true) :
    finalizeSession s = (s, []) := by
  rw [finalizeSession, if_pos h]

/-- None of the unconditional close effects is a finalization timer. -/
theorem scheduleFinalize_not_mem_close_parts (s : SessionSt) (eid : String) (ev : Event)
    (d : ℕ) :
    Eff.scheduleFinalize d ∉
      ([Eff.logClose eid] ++
        (List.filterMap (fun kv =>
          if (alGet ((alGet s.inputs eid).getD []) kv.1).isSome = true then none
          else if kv.1 ∈ s.controlPids then
            some (Eff.feedbackNoResponse kv.1 eid ev.noRespDelta (kv.2.score + ev.noRespDelta))
          else none) s.participants) ++
        [Eff.bcastCloseOps eid, Eff.bcastCloseControl eid] ++
        (if ev.hasDashboardClose = true then [Eff.dashClose eid] else [])) := by
  intro hmem
  rcases List.mem_append.mp hmem with hmem1 | hdash
  · rcases List.mem_append.mp hmem1 with hmem2 | hbc
    · rcases List.mem_append.mp hmem2 with hlog | hfb
      · simp at hlog
      · rw [List.mem_filterMap] at hfb
        obtain ⟨kv, -, heq⟩ := hfb
        split at heq
        · cases heq
        · split at heq
          · exact Eff.noConfusion (Option.some.inj heq)
          · cases heq
    · simp at hbc
  · revert hdash
    split
    · intro h
      simp at h
    · intro h
      simp at h

/-- C6: finalization is idempotent — its effects (leaderboard broadcast to
ops, personal final totals to every connected control socket, clock stop)
run exactly once no matter how often it is invoked — and the finalization
timer is armed by `closeEvent` exactly when the close being processed leaves
every event of the scenario closed, with the delay
`(meta?.endBufferSec ?? 8) * 1000` ms; finalization permanently clears the
tick interval. -/
theorem finalization_once :
    (∀ s : SessionSt, s.finalized = true → finalizeSession s = (s, [])) ∧
    (∀ s : SessionSt, finalizeSession (finalizeSession s).1 = ((finalizeSession s).1, [])) ∧
    (∀ s : SessionSt, s.finalized = false →
      (finalizeSession s).1.finalized = true ∧
      (finalizeSession s).1.timerRunning = false ∧
      Eff.bcastFinal (leaderboardOf s.participants) ∈ (finalizeSession s).2 ∧
      (∀ pid ∈ s.controlPids,
        Eff.personalFinal pid (((alGet s.participants pid).map Participant.score).getD 0)
          ∈ (finalizeSession s).2) ∧
      (s.timerRunning = true → Eff.stopClock ∈ (finalizeSession s).2)) ∧
    (∀ (s : SessionSt) (eid : String) (d : ℕ),
      Eff.scheduleFinalize d ∈ (closeEvent s eid).2 ↔
      (∃ ev, s.events.find? (fun e => e.id = eid) = some ev ∧ ev.closed = false ∧
        ((markClosedFirst s.events eid).all fun e => e.closed) = true ∧
        d = (s.endBufferSec.getD 8) * 1000)) := by
  refine ⟨finalizeSession_guard, ?_, ?_, ?_⟩
  · intro s
    by_cases h : s.finalized = true
    · have h1 := finalizeSession_guard s h
      rw [h1]
      exact h1
    · refine finalizeSession_guard _ ?_
      simp only [finalizeSession, if_neg h]
  · intro s h
    have hne : ¬ (s.finalized = true) := by simp [h]
    refine ⟨?_, ?_, ?_, ?_, ?_⟩
    · simp only [finalizeSession, if_neg hne]
    · simp only [finalizeSession, if_neg hne]
    · simp only [finalizeSession, if_neg hne]
      simp
    · intro pid hpid
      simp only [finalizeSession, if_neg hne]
      refine List.mem_append.mpr (Or.inl (List.mem_append.mpr (Or.inr ?_)))
      exact List.mem_map.mpr ⟨pid, hpid, rfl⟩
    · intro htr
      simp only [finalizeSession, if_neg hne]
      simp [htr]
  · intro s eid d
    cases hfind : s.events.find? (fun e => e.id = eid) with
    | none =>
      have h1 : closeEvent s eid = (s, []) := by simp only [closeEvent, hfind]
      rw [h1]
      simp [hfind]
    | some ev =>
      by_cases hc : ev.closed = true
      · rw [closeEvent_guard s eid ev hfind hc]
        constructor
        · intro hmem
          exact absurd hmem (List.not_mem_nil _)
        · rintro ⟨ev', hfind', hnc', -, -⟩
          obtain rfl : ev = ev' := Option.some.inj hfind'
          rw [hc] at hnc'
          cases hnc'
      · simp only [closeEvent, hfind]
        rw [if_neg hc]
        dsimp only
        constructor
        · intro hmem
          by_cases hall : ((markClosedFirst s.events eid).all fun e => e.closed) = true
          · rw [if_pos hall] at hmem
            rcases List.mem_append.mp hmem with hx | hx
            · exact absurd hx (scheduleFinalize_not_mem_close_parts s eid ev d)
            · refine ⟨ev, rfl, by simpa using hc, hall, ?_⟩
              simpa using hx
          · rw [if_neg hall, List.append_nil] at hmem
            exact absurd hmem (scheduleFinalize_not_mem_close_parts s eid ev d)
        · rintro ⟨ev', -, -, hall', hd'⟩
          rw [if_pos hall', hd']
          exact List.mem_append.mpr (Or.inr (by simp))

/-- Witness for C6: finalizing the fresh fixture stops its (armed) clock, and
closing the last open event of the recorded fixture arms the finalization
timer with the default 8-second end buffer. -/
theorem finalization_once_witness :
    finalizeSession (finalizeSession sFixFresh).1 = ((finalizeSession sFixFresh).1, []) ∧
    Eff.scheduleFinalize 8000 ∈ (closeEvent sFixRecorded "E1").2 :=
  ⟨finalization_once.2.1 sFixFresh,
   (finalization_once.2.2.2 sFixRecorded "E1" 8000).mpr
     ⟨{ id := "E1", t := 0, responseWindowSec := 10, correctAction := "A" },
      by decide, rfl, by decide, by decide⟩⟩

/-! ## C7 / C8 / C10: Patch Merge Engine -/

theorem alSet_append_of_not_mem {K V : Type} [DecidableEq K] (m : List (K × V)) (k : K) (v : V)
    (h : k ∉ m.map Prod.fst) : alSet m k v = m ++ [(k, v)] := by
  induction m with
  | nil => rfl
  | cons hd tl ih =>
    have h1 : hd.1 ≠ k := fun hh => h (by simp [hh])
    have h2 : k ∉ tl.map Prod.fst := fun hh => h (by simp [hh])
    simp only [alSet, if_neg h1, ih h2, List.cons_append]

theorem alGet_eq_none_of_not_mem {K V : Type} [DecidableEq K] (m : List (K × V)) (k : K)
    (h : k ∉ m.map Prod.fst) : alGet m k = none := by
  induction m with
  | nil => rfl
  | cons hd tl ih =>
    have h1 : hd.1 ≠ k := fun hh => h (by simp [hh])
    have h2 : k ∉ tl.map Prod.fst := fun hh => h (by simp [hh])
    simp only [alGet, if_neg h1, ih h2]

theorem alGet_append_cons {K V : Type} [DecidableEq K] (m₁ m₂ : List (K × V)) (k : K) (v : V)
    (h : k ∉ m₁.map Prod.fst) : alGet (m₁ ++ (k, v) :: m₂) k = some v := by
  induction m₁ with
  | nil => simp [alGet]
  | cons hd tl ih =>
    have h1 : hd.1 ≠ k := fun hh => h (by simp [hh])
    have h2 : k ∉ tl.map Prod.fst := fun hh => h (by simp [hh])
    simp only [List.cons_append, alGet, if_neg h1]
    exact ih h2

theorem alSet_append_cons {K V : Type} [DecidableEq K] (m₁ m₂ : List (K × V)) (k : K) (v w : V)
    (h : k ∉ m₁.map Prod.fst) : alSet (m₁ ++ (k, v) :: m₂) k w = m₁ ++ (k, w) :: m₂ := by
  induction m₁ with
  | nil => simp [alSet]
  | cons hd tl ih =>
    have h1 : hd.1 ≠ k := fun hh => h (by simp [hh])
    have h2 : k ∉ tl.map Prod.fst := fun hh => h (by simp [hh])
    simp only [List.cons_append, alSet, if_neg h1]
    show (hd.1, hd.2) :: alSet (tl ++ (k, v) :: m₂) k w = hd :: (tl ++ (k, w) :: m₂)
    rw [ih h2]

/-- First-occurrence decomposition of an association list at a present key. -/
theorem exists_first_occurrence {K V : Type} [DecidableEq K] (m : List (K × V)) (k : K)
    (h : k ∈ m.map Prod.fst) :
    ∃ m₁ v m₂, m = m₁ ++ (k, v) :: m₂ ∧ k ∉ m₁.map Prod.fst := by
  induction m with
  | nil => simp at h
  | cons hd tl ih =>
    by_cases hhd : hd.1 = k
    · exact ⟨[], hd.2, tl, by rw [← hhd]; simp, by simp⟩
    · have htl : k ∈ tl.map Prod.fst := by
        rw [List.map_cons] at h
        rcases List.mem_cons.mp h with h1 | h1
        · exact absurd h1.symm hhd
        · exact h1
      obtain ⟨m₁, v, m₂, rfl, hnm⟩ := ih htl
      refine ⟨hd :: m₁, v, m₂, rfl, ?_⟩
      simp only [List.map_cons, List.mem_cons]
      rintro (h1 | h1)
      · exact hhd h1.symm
      · exact hnm h1

/-- Folding `alSet` over fresh, pairwise-distinct keys appends pairs in order. -/
theorem foldl_alSet_fresh {α K V : Type} [DecidableEq K] (key : α → K) (val : α → V) :
    ∀ (l : List α) (acc : List (K × V)),
      (∀ k ∈ acc.map Prod.fst, k ∉ l.map key) → (l.map key).Nodup →
      l.foldl (fun m a => alSet m (key a) (val a)) acc = acc ++ l.map (fun a => (key a, val a))
  | [], acc, _, _ => by simp
  | a :: l, acc, hdisj, hnd => by
    have hfresh : key a ∉ acc.map Prod.fst := fun hmem => hdisj _ hmem (by simp)
    have hstep : alSet acc (key a) (val a) = acc ++ [(key a, val a)] :=
      alSet_append_of_not_mem _ _ _ hfresh
    have hnd' : (l.map key).Nodup := by simpa using hnd.of_cons
    have hka : key a ∉ l.map key := by
      have := hnd
      simp only [List.map_cons, List.nodup_cons] at this
      exact this.1
    have hdisj' : ∀ k ∈ (acc ++ [(key a, val a)]).map Prod.fst, k ∉ l.map key := by
      intro k hk
      rcases by simpa using hk with hk1 | hk1
      · intro hbad
        exact hdisj k (by simpa using hk1) (by simp [hbad])
      · rw [hk1]
        exact hka
    rw [List.foldl_cons, hstep, foldl_alSet_fresh key val l _ hdisj' hnd']
    simp

/-- Spreading a well-formed object into the empty object reproduces it. -/
theorem objMerge_nil (o : Obj) (h : (o.map Prod.fst).Nodup) : objMerge [] o = o := by
  have := foldl_alSet_fresh (Prod.fst : String × JVal → String) Prod.snd o []
    (by simp) h
  simpa [objMerge, objSet] using this

/-- `new Map(current.map(it => [it.id, it]))` with distinct ids is the paired
list in order. -/
theorem jsMapOf_eq_of_nodup (current : List Obj) (h : (current.map idOf).Nodup) :
    jsMapOf current = current.map fun it => (idOf it, it) := by
  have := foldl_alSet_fresh idOf (id : Obj → Obj) current [] (by simp) h
  simpa [jsMapOf] using this

theorem upsertSlot_nil (k : Option JVal) (o : Obj) : upsertSlot [] k o = o := rfl

theorem upsertSlot_cons_ne (i : Obj) (rest : List Obj) (k : Option JVal) (o : Obj)
    (h : idOf i ≠ k) : upsertSlot (i :: rest) k o = upsertSlot rest k o := by
  have hf : List.find? (fun j => idOf j = k) (i :: rest) = List.find? (fun j => idOf j = k) rest :=
    List.find?_cons_of_neg _ (by simp [h])
  simp only [upsertSlot, hf]

theorem upsertSlot_head (i : Obj) (rest : List Obj) (o : Obj) :
    upsertSlot (i :: rest) (idOf i) o = objMerge o i := by
  have hf : List.find? (fun j => idOf j = idOf i) (i :: rest) = some i :=
    List.find?_cons_of_pos _ (by simp)
  simp only [upsertSlot, hf]

theorem upsertSlot_of_not_mem (items : List Obj) (k : Option JVal) (o : Obj)
    (h : ∀ j ∈ items, idOf j ≠ k) : upsertSlot items k o = o := by
  have hnone : items.find? (fun j => idOf j = k) = none :=
    List.find?_eq_none.mpr fun j hj => by simpa using h j hj
  simp only [upsertSlot, hnone]

theorem upsertFresh_cons_mem (i : Obj) (rest : List Obj) (keys : List (Option JVal))
    (h : idOf i ∈ keys) : upsertFresh (i :: rest) keys = upsertFresh rest keys := by
  simp [upsertFresh, List.filter_cons, h]

theorem upsertFresh_cons_fresh (i : Obj) (rest : List Obj) (keys : List (Option JVal))
    (h : idOf i ∉ keys) : upsertFresh (i :: rest) keys = i :: upsertFresh rest keys := by
  simp [upsertFresh, List.filter_cons, h]

theorem upsertFresh_append_key (rest : List Obj) (keys : List (Option JVal)) (k : Option JVal)
    (h : k ∉ rest.map idOf) : upsertFresh rest (keys ++ [k]) = upsertFresh rest keys := by
  simp only [upsertFresh]
  apply List.filter_congr
  intro j hj
  have hne : idOf j ≠ k := fun hh => h (hh ▸ List.mem_map_of_mem idOf hj)
  refine decide_eq_decide.mpr ?_
  simp [List.mem_append, hne]

/-- The upsert fold of `mergeList`, characterized declaratively: every key
already in the map is shallow-merged in place with its (unique) matching
incoming item, and unmatched incoming items are appended in order. -/
theorem upsert_foldl (items : List Obj) :
    ∀ pre : List (Option JVal × Obj),
      (pre.map Prod.fst).Nodup →
      (∀ i ∈ items, truthyIdB i = true ∧ (List.map Prod.fst i).Nodup) →
      (items.map idOf).Nodup →
      items.foldl upStep pre =
        pre.map (fun kv => (kv.1, upsertSlot items kv.1 kv.2)) ++
          (upsertFresh items (pre.map Prod.fst)).map fun i => (idOf i, i) := by
  induction items with
  | nil =>
    intro pre _ _ _
    simp [upsertSlot, upsertFresh]
  | cons i rest ih =>
    intro pre hkeys hitems hids
    obtain ⟨hti, hwf⟩ := hitems i (List.mem_cons_self i rest)
    have hitems' : ∀ j ∈ rest, truthyIdB j = true ∧ (List.map Prod.fst j).Nodup :=
      fun j hj => hitems j (List.mem_cons_of_mem i hj)
    have hids' : (rest.map idOf).Nodup := by
      simp only [List.map_cons, List.nodup_cons] at hids
      exact hids.2
    have hknotin : idOf i ∉ rest.map idOf := by
      simp only [List.map_cons, List.nodup_cons] at hids
      exact hids.1
    rw [List.foldl_cons]
    by_cases hk : idOf i ∈ pre.map Prod.fst
    · obtain ⟨m₁, v, m₂, rfl, hnm⟩ := exists_first_occurrence pre (idOf i) hk
      have hget : alGet (m₁ ++ (idOf i, v) :: m₂) (idOf i) = some v :=
        alGet_append_cons _ _ _ _ hnm
      have hset : upStep (m₁ ++ (idOf i, v) :: m₂) i = m₁ ++ (idOf i, objMerge v i) :: m₂ := by
        simp only [upStep, if_pos hti, hget, Option.getD_some]
        exact alSet_append_cons _ _ _ _ _ hnm
      have hkeq : (m₁ ++ (idOf i, objMerge v i) :: m₂).map Prod.fst
          = (m₁ ++ (idOf i, v) :: m₂).map Prod.fst := by simp
      have hnm₂ : idOf i ∉ m₂.map Prod.fst := by
        have h2 := (List.nodup_append.mp
          (by simpa using hkeys :
            (m₁.map Prod.fst ++ (idOf i :: m₂.map Prod.fst)).Nodup)).2.1
        exact (List.nodup_cons.mp h2).1
      rw [hset, ih (m₁ ++ (idOf i, objMerge v i) :: m₂) (hkeq ▸ hkeys) hitems' hids']
      congr 1
      · rw [List.map_append, List.map_append, List.map_cons, List.map_cons]
        congr 1
        · refine List.map_congr_left fun kv hkv => ?_
          have hne : idOf i ≠ kv.1 :=
            fun hh => hnm (hh ▸ List.mem_map_of_mem Prod.fst hkv)
          rw [upsertSlot_cons_ne i rest kv.1 kv.2 hne]
        · congr 1
          · rw [upsertSlot_of_not_mem rest (idOf i) _
              (fun j hj hh => hknotin (hh ▸ List.mem_map_of_mem idOf hj))]
            rw [upsertSlot_head]
          · refine List.map_congr_left fun kv hkv => ?_
            have hne : idOf i ≠ kv.1 :=
              fun hh => hnm₂ (hh ▸ List.mem_map_of_mem Prod.fst hkv)
            rw [upsertSlot_cons_ne i rest kv.1 kv.2 hne]
      · rw [hkeq, upsertFresh_cons_mem i rest _ hk]
    · have hget : alGet pre (idOf i) = none := alGet_eq_none_of_not_mem _ _ hk
      have hset : upStep pre i = pre ++ [(idOf i, i)] := by
        simp only [upStep, if_pos hti, hget, Option.getD_none]
        rw [objMerge_nil i hwf, alSet_append_of_not_mem _ _ _ hk]
      have hkeysB : ((pre ++ [(idOf i, i)]).map Prod.fst).Nodup := by
        rw [List.map_append]
        exact List.Nodup.append hkeys (by simp) (by simpa using hk)
      rw [hset, ih (pre ++ [(idOf i, i)]) hkeysB hitems' hids']
      rw [List.map_append, List.map_cons]
      rw [upsertFresh_cons_fresh i rest _ hk, List.map_cons]
      rw [show (pre ++ [(idOf i, i)]).map Prod.fst = pre.map Prod.fst ++ [idOf i] by simp]
      rw [upsertFresh_append_key rest _ _ hknotin]
      have hpre : pre.map (fun kv => (kv.1, upsertSlot (i :: rest) kv.1 kv.2))
          = pre.map (fun kv => (kv.1, upsertSlot rest kv.1 kv.2)) := by
        refine List.map_congr_left fun kv hkv => ?_
        have hne : idOf i ≠ kv.1 := fun hh => hk (hh ▸ List.mem_map_of_mem Prod.fst hkv)
        rw [upsertSlot_cons_ne i rest kv.1 kv.2 hne]
      rw [hpre]
      rw [upsertSlot_of_not_mem rest (idOf i) i
        (fun j hj hh => hknotin (hh ▸ List.mem_map_of_mem idOf hj))]
      simp

/-- C7 fails as stated: under mode `"upsert"`, existing entries without a
(truthy) id all share the JS `Map` key `undefined`, so all but the last are
silently dropped even when no incoming item matches and nothing is removed —
the existing entries are *not* all preserved. -/
theorem merge_modes_counterexample :
    mergeList [[("x", JVal.num 1)], [("y", JVal.num 2)]] "upsert" [] []
        = [[("y", JVal.num 2)]] ∧
    mergeList [[("x", JVal.num 1)], [("y", JVal.num 2)]] "upsert" [] []
        ≠ [[("x", JVal.num 1)], [("y", JVal.num 2)]] := by decide

/-- C7 (amended): for every existing collection and patch, `mergeList`
returns, before the removal step: for `"replace"` exactly `items`; for
`"append"` existing followed by `items`; for `"prepend"` `items` followed by
existing; and for `"upsert"` — provided the existing entries have pairwise
distinct ids and the incoming items are well-formed objects with distinct,
present (truthy) ids — the existing entries in order, each shallow-merged
with the incoming item matching its id (if any), followed by the unmatched
incoming items in order.  In every mode, entries whose id is in `removeIds`
are dropped after the mode's merge step (`applyRemoveIds`). -/
theorem merge_modes (existing items : List Obj) (removeIds : List JVal) :
    mergeList existing "replace" items removeIds = applyRemoveIds items removeIds ∧
    mergeList existing "append" items removeIds = applyRemoveIds (existing ++ items) removeIds ∧
    mergeList existing "prepend" items removeIds = applyRemoveIds (items ++ existing) removeIds ∧
    ((existing.map idOf).Nodup →
      (∀ o ∈ items, truthyIdB o = true ∧ (List.map Prod.fst o).Nodup) →
      (items.map idOf).Nodup →
      mergeList existing "upsert" items removeIds =
        applyRemoveIds
          ((existing.map fun e => upsertSlot items (idOf e) e) ++
            upsertFresh items (existing.map idOf))
          removeIds) := by
  refine ⟨rfl, rfl, rfl, ?_⟩
  intro hexnd hitems hids
  have hkeys : ((existing.map fun it => (idOf it, it)).map Prod.fst).Nodup := by
    simpa [List.map_map] using hexnd
  have h1 : mergeList existing "upsert" items removeIds
      = applyRemoveIds ((items.foldl upStep (jsMapOf existing)).map Prod.snd) removeIds := rfl
  rw [h1, jsMapOf_eq_of_nodup existing hexnd, upsert_foldl items _ hkeys hitems hids]
  congr 1
  rw [List.map_append]
  congr 1
  · simp only [List.map_map]
    rfl
  · simp only [List.map_map]
    have hk : List.map (Prod.fst ∘ fun it => (idOf it, it)) existing = existing.map idOf :=
      List.map_congr_left fun a _ => rfl
    rw [hk]
    exact (List.map_congr_left fun a _ => rfl).trans (List.map_id' _)

/-- Witness for C7: upserting a fresh-id item into a one-entry collection
keeps the existing entry and appends the incoming one. -/
theorem merge_modes_witness :
    mergeList [[("id", JVal.str "a"), ("x", JVal.num 1)]] "upsert"
        [[("id", JVal.str "b"), ("y", JVal.num 2)]] []
      = [[("id", JVal.str "a"), ("x", JVal.num 1)], [("id", JVal.str "b"), ("y", JVal.num 2)]] := by
  have h := (merge_modes [[("id", JVal.str "a"), ("x", JVal.num 1)]]
    [[("id", JVal.str "b"), ("y", JVal.num 2)]] []).2.2.2 (by decide) (by decide) (by decide)
  rw [h]
  decide

/-! ## C8 -/

/-- C8: Patch Merge Engine round-trip — starting from the empty collection,
upserting `id:"a", x:1` and then `id:"a", y:2` yields exactly one entry
`id:"a", x:1, y:2`. -/
theorem upsert_round_trip :
    mergeList
      (mergeList [] "upsert" [[("id", JVal.str "a"), ("x", JVal.num 1)]] [])
      "upsert" [[("id", JVal.str "a"), ("y", JVal.num 2)]] []
      = [[("id", JVal.str "a"), ("x", JVal.num 1), ("y", JVal.num 2)]] := by decide

/-! ## C10 -/

/-- C10 fails as stated: the empty string lowercases to a string that is none
of the four recognized modes, yet `(mode || "replace")` treats it as
`"replace"` — the existing entries are discarded, not preserved. -/
theorem unrecognized_mode_counterexample :
    jsToLower "" ∉ (["replace", "append", "prepend", "upsert"] : List String) ∧
    mergeList [[("x", JVal.num 1)]] "" [] [] = [] ∧
    ([] : List Obj) ≠ [[("x", JVal.num 1)]] := by decide

/-- C10 (amended): for every patch whose mode string is non-empty and (after
lowercasing) none of `"replace"`, `"append"`, `"prepend"`, `"upsert"`, the
merge degrades to a pure removal: the existing entries are kept in content
and order except that entries whose id is in `removeIds` are dropped. -/
theorem unrecognized_mode (existing : List Obj) (mode : String) (items : List Obj)
    (removeIds : List JVal) (hne : mode ≠ "")
    (hmode : jsToLower mode ∉ (["replace", "append", "prepend", "upsert"] : List String)) :
    mergeList existing mode items removeIds = applyRemoveIds existing removeIds := by
  have h1 : jsToLower mode ≠ "replace" := fun h => hmode (by rw [h]; simp)
  have h2 : jsToLower mode ≠ "append" := fun h => hmode (by rw [h]; simp)
  have h3 : jsToLower mode ≠ "prepend" := fun h => hmode (by rw [h]; simp)
  have h4 : jsToLower mode ≠ "upsert" := fun h => hmode (by rw [h]; simp)
  simp only [mergeList, if_neg hne, if_neg h1, if_neg h2, if_neg h3, if_neg h4]

/-! ## C9 -/

/-- C9: the leaderboard lists every participant (the projected rows are a
permutation of the participant projections), sorted by cumulative score
descending, with rank equal to 1-based sorted position — so tied scores get
distinct sequential ranks (the rank column is exactly `[1, ..., n]`) — and in
particular participants with scores `[50, 90, 90]` produce the order
`[90, 90, 50]` with ranks `[1, 2, 3]`. -/
theorem leaderboard_ranking :
    (∀ ps : List (String × Participant),
      ((leaderboardOf ps).map RankedRow.toLbRow).Perm
        (ps.map fun kv => (⟨kv.2.id, kv.2.codename, kv.2.score⟩ : LbRow)) ∧
      ((leaderboardOf ps).map RankedRow.score).Pairwise (fun a b => b ≤ a) ∧
      (leaderboardOf ps).map RankedRow.rank = (List.range ps.length).map (· + 1)) ∧
    leaderboardOf [("p1", ⟨"p1", "A", 50⟩), ("p2", ⟨"p2", "B", 90⟩), ("p3", ⟨"p3", "C", 90⟩)]
      = [⟨"p2", "B", 90, 1⟩, ⟨"p3", "C", 90, 2⟩, ⟨"p1", "A", 50, 3⟩] := by
  constructor
  · intro ps
    refine ⟨?_, ?_, ?_⟩
    · have key : (leaderboardOf ps).map RankedRow.toLbRow
          = lbSortJS (ps.map fun kv => (⟨kv.2.id, kv.2.codename, kv.2.score⟩ : LbRow)) := by
        simp only [leaderboardOf, List.map_map]
        have hfun : (RankedRow.toLbRow ∘ fun p : ℕ × LbRow =>
            (⟨p.2.participantId, p.2.codename, p.2.score, p.1 + 1⟩ : RankedRow))
            = Prod.snd := by
          funext p
          rfl
        rw [hfun, List.enum_map_snd]
      rw [key]
      exact List.perm_insertionSort lbLE _
    · have key : (leaderboardOf ps).map RankedRow.score
          = (lbSortJS (ps.map fun kv => (⟨kv.2.id, kv.2.codename, kv.2.score⟩ : LbRow))).map
              LbRow.score := by
        simp only [leaderboardOf, List.map_map]
        have hfun : (RankedRow.score ∘ fun p : ℕ × LbRow =>
            (⟨p.2.participantId, p.2.codename, p.2.score, p.1 + 1⟩ : RankedRow))
            = (LbRow.score ∘ Prod.snd) := rfl
        rw [hfun, ← List.map_map, List.enum_map_snd]
      rw [key]
      have hsorted : List.Sorted lbLE
          (lbSortJS (ps.map fun kv => (⟨kv.2.id, kv.2.codename, kv.2.score⟩ : LbRow))) :=
        List.sorted_insertionSort lbLE _
      exact List.Pairwise.map LbRow.score (fun a b hab => hab) hsorted
    · have hlen : (lbSortJS (ps.map fun kv =>
          (⟨kv.2.id, kv.2.codename, kv.2.score⟩ : LbRow))).length = ps.length := by
        rw [lbSortJS, (List.perm_insertionSort lbLE _).length_eq, List.length_map]
      simp only [leaderboardOf, List.map_map]
      have hfun : (RankedRow.rank ∘ fun p : ℕ × LbRow =>
          (⟨p.2.participantId, p.2.codename, p.2.score, p.1 + 1⟩ : RankedRow))
          = ((· + 1) ∘ Prod.fst) := rfl
      rw [hfun, ← List.map_map, List.enum_map_fst, hlen]
  · decide

/-- Witness for C10: an unknown mode `"Bogus"` only applies the removal. -/
theorem unrecognized_mode_witness :
    mergeList [[("id", JVal.str "a")], [("id", JVal.str "b")]] "Bogus" [[("z", JVal.num 9)]]
      [JVal.str "a"] = [[("id", JVal.str "b")]] := by
  rw [unrecognized_mode _ "Bogus" _ _ (by decide) (by decide)]
  decide

end Dystopia
